import Mathlib

/-!
Shallow embedding of the dumbo_rocks_db record-access layer
(src/column_family.rs, src/utils.rs, src/db_context.rs).

A RocksDB column family is modelled as an association list of
(key, value) pairs kept in ascending lexicographic byte order of keys,
which is RocksDB's iteration order from `IteratorMode::Start`.  Keys
are byte strings (`List Nat`, each element a byte).  Values are an
abstract type `V`; the serde_json codec is modelled by explicit
`encode : T → V` / `decode : V → Option T` functions (a `none` result
is a deserialization failure, the only data-dependent failure of the
codec).  Engine-level failures (handle resolution, iterator I/O
errors) are environmental and are not modelled on the pure store; the
data-dependent failure modes (deserialization failure, invalid UTF-8
in a key) are modelled exactly where the source checks them.
-/

namespace DumboDb

/-- Byte-string keys, as stored by RocksDB. -/
abbrev Key := List Nat

/-- Strict lexicographic order on byte strings.  This is the ordering
RocksDB uses for iteration and the ordering of Rust `String`
comparison (byte-wise on the UTF-8 representation). -/
def lexLt : List Nat → List Nat → Bool
  | _, [] => false
  | [], _ :: _ => true
  | a :: as, b :: bs => if a < b then true else if a = b then lexLt as bs else false

/-- Non-strict lexicographic order on byte strings. -/
def lexLe : List Nat → List Nat → Bool
  | [], _ => true
  | _ :: _, [] => false
  | a :: as, b :: bs => if a < b then true else if a = b then lexLe as bs else false

/-- Base-10 digits of `n`, least significant first, computed with a
digit-count fuel (every number this development renders is below
`10 ^ 20`, since it fits in 64 bits). -/
def digitsRev : Nat → Nat → List Nat
  | 0, _ => []
  | fuel + 1, n => if n = 0 then [] else n % 10 :: digitsRev fuel (n / 10)

/-- Value denoted by a least-significant-first digit list. -/
def valLSB : List Nat → Nat
  | [] => 0
  | d :: ds => d + 10 * valLSB ds

/-- ASCII decimal representation of `n` (most significant digit
first), as produced by Rust `to_string` / `format!` for the 64-bit
values this repository renders. -/
def decimalBytes (n : Nat) : List Nat :=
  if n = 0 then [48] else ((digitsRev 20 n).map (fun d => d + 48)).reverse

/-- Numeric value denoted by a most-significant-first ASCII digit
string. -/
def byteVal : List Nat → Nat
  | [] => 0
  | d :: ds => (d - 48) * 10 ^ ds.length + byteVal ds

/-- Left-pad a byte string with ASCII zeros up to width `w`, as done
by Rust `format!` width specifiers. -/
def pad (w : Nat) (bs : List Nat) : List Nat :=
  List.replicate (w - bs.length) 48 ++ bs

/-- `2 ^ 64`, the modulus of Rust `u64` arithmetic. -/
def u64Mod : Nat := 18446744073709551616

/-- `i64::MAX as u64`, the `max_timestamp` constant of
`filter_by_time_index`. -/
def maxTimestampU64 : Nat := 9223372036854775807

/-- Wrapping `u64` subtraction (release-mode Rust semantics of
`a - b`; a wrap is the underflow the debug build panics on). -/
def u64_sub (a b : Nat) : Nat := (u64Mod + a - b) % u64Mod

/-- `i64::MAX`, the `max_timestamp` constant of
`generate_timestamp_index`. -/
def i64Max : Int := 9223372036854775807

/-- `i64::MIN`. -/
def i64Min : Int := -9223372036854775808

/-- Wrap an integer into the signed 64-bit range (release-mode Rust
overflow semantics; a wrap is the overflow the debug build panics
on). -/
def i64_wrap (x : Int) : Int :=
  (x + 9223372036854775808) % 18446744073709551616 - 9223372036854775808

/-- Wrapping `i64` subtraction. -/
def i64_sub (a b : Int) : Int := i64_wrap (a - b)

/-- Rust `format!("{:020}", x)` for an `i64` value: decimal digits,
left-padded with zeros to a total width of 20 (the sign, when present,
counts toward the width). -/
def fmt020 (x : Int) : List Nat :=
  if x < 0 then 45 :: pad 19 (decimalBytes x.natAbs) else pad 20 (decimalBytes x.toNat)

/-- src/utils.rs `generate_timestamp_index`: the inverted timestamp
`i64::MAX - ts` rendered as a 20-char zero-padded decimal, then `'_'`
(byte 95) and the config id. -/
def generate_timestamp_index (config_id : List Nat) (ts : Int) : List Nat :=
  fmt020 (i64_sub i64Max ts) ++ 95 :: config_id

/-- UTF-8 continuation byte (`0x80..=0xBF`). -/
def utf8Cont (b : Nat) : Bool := 128 ≤ b && b ≤ 191

/-- Validity of a byte string as UTF-8, exactly the shape accepted by
Rust `String::from_utf8`: ASCII, 2-byte `C2..DF`, 3-byte forms
excluding overlongs (`E0 A0..BF`) and surrogates (`ED 80..9F`), and
4-byte forms up to `U+10FFFF` (`F0 90..BF`, `F1..F3`, `F4 80..8F`). -/
def utf8Valid : List Nat → Bool
  | [] => true
  | b :: rest =>
    if b ≤ 127 then utf8Valid rest
    else if 194 ≤ b && b ≤ 223 then
      match rest with
      | b2 :: rest2 => utf8Cont b2 && utf8Valid rest2
      | [] => false
    else if b = 224 then
      match rest with
      | b2 :: b3 :: rest3 => (160 ≤ b2 && b2 ≤ 191) && (utf8Cont b3 && utf8Valid rest3)
      | _ => false
    else if (225 ≤ b && b ≤ 236) || b = 238 || b = 239 then
      match rest with
      | b2 :: b3 :: rest3 => utf8Cont b2 && (utf8Cont b3 && utf8Valid rest3)
      | _ => false
    else if b = 237 then
      match rest with
      | b2 :: b3 :: rest3 => (128 ≤ b2 && b2 ≤ 159) && (utf8Cont b3 && utf8Valid rest3)
      | _ => false
    else if b = 240 then
      match rest with
      | b2 :: b3 :: b4 :: rest4 =>
        (144 ≤ b2 && b2 ≤ 191) && (utf8Cont b3 && (utf8Cont b4 && utf8Valid rest4))
      | _ => false
    else if 241 ≤ b && b ≤ 243 then
      match rest with
      | b2 :: b3 :: b4 :: rest4 =>
        utf8Cont b2 && (utf8Cont b3 && (utf8Cont b4 && utf8Valid rest4))
      | _ => false
    else if b = 244 then
      match rest with
      | b2 :: b3 :: b4 :: rest4 =>
        (128 ≤ b2 && b2 ≤ 143) && (utf8Cont b3 && (utf8Cont b4 && utf8Valid rest4))
      | _ => false
    else false

/-- The data-dependent failures of the accessor operations:
`Failed to deserialize value` and `Invalid UTF-8 in key`. -/
inductive DbError : Type
  | decodeFailure
  | invalidUtf8Key
  deriving DecidableEq

namespace ColumnFamily

variable {V T : Type}

/-- RocksDB point lookup `get_cf` on the modelled store. -/
def lookupKey (k : Key) : List (Key × V) → Option V
  | [] => none
  | (k', v) :: rest => if k = k' then some v else lookupKey k rest

/-- RocksDB `put_cf` on the modelled store: insert at the sorted
position, overwriting an existing entry with the same key. -/
def setEntry (k : Key) (v : V) : List (Key × V) → List (Key × V)
  | [] => [(k, v)]
  | (k', v') :: rest =>
    if lexLt k k' then (k, v) :: (k', v') :: rest
    else if k = k' then (k, v) :: rest
    else (k', v') :: setEntry k v rest

/-- `ColumnFamily::get_all`: scan from the start, deserialize every
value, abort on the first failure. -/
def get_all (decode : V → Option T) : List (Key × V) → Except DbError (List T)
  | [] => .ok []
  | (_, v) :: rest =>
    match decode v with
    | none => .error .decodeFailure
    | some t =>
      match get_all decode rest with
      | .ok l => .ok (t :: l)
      | .error e => .error e

/-- `ColumnFamily::get`: point lookup; a missing key is `Ok(None)`,
a value that does not deserialize is an error. -/
def get (decode : V → Option T) (st : List (Key × V)) (key : Key) :
    Except DbError (Option T) :=
  match lookupKey key st with
  | none => .ok none
  | some v =>
    match decode v with
    | none => .error .decodeFailure
    | some t => .ok (some t)

/-- `ColumnFamily::del`: unconditional `delete_cf`. -/
def del (st : List (Key × V)) (key : Key) : List (Key × V) :=
  st.filter (fun e => decide (e.1 ≠ key))

/-- `ColumnFamily::set`: derive the key from the record, serialize,
`put_cf` (overwrite semantics). -/
def set (encode : T → V) (keyOf : T → Key) (st : List (Key × V)) (item : T) :
    List (Key × V) :=
  setEntry (keyOf item) (encode item) st

/-- `ColumnFamily::count_all`: scan from the start counting entries;
the loop never deserializes the values. -/
def count_all : List (Key × V) → Except DbError Nat
  | [] => .ok 0
  | _ :: rest =>
    match count_all rest with
    | .ok n => .ok (n + 1)
    | .error e => .error e

/-- `ColumnFamily::keep_size`: count, no-op when within bounds, else
collect the keys of the first `count - size` entries in iteration
order and delete them in one write batch. -/
def keep_size (st : List (Key × V)) (size : Nat) : Except DbError (List (Key × V)) :=
  match count_all st with
  | .error e => .error e
  | .ok current_count =>
    if current_count ≤ size then .ok st
    else
      let keysToDelete := (st.take (current_count - size)).map Prod.fst
      .ok (st.filter (fun e => decide (e.1 ∉ keysToDelete)))

/-- `filter_by_time_index`'s `start_key`:
`(max_timestamp - end_time).to_string()` (no zero-padding). -/
def filterStartKey (end_time : Nat) : Key :=
  decimalBytes (u64_sub maxTimestampU64 end_time)

/-- `filter_by_time_index`'s `end_key`:
`(max_timestamp - start_time).to_string()` (no zero-padding). -/
def filterEndKey (start_time : Nat) : Key :=
  decimalBytes (u64_sub maxTimestampU64 start_time)

/-- The range test `key_str >= start_key && key_str <= end_key` of
`filter_by_time_index`, on the raw key bytes (Rust `String`
comparison is byte-wise). -/
def keyInRange (start_time end_time : Nat) (k : Key) : Bool :=
  lexLe (filterStartKey end_time) k && lexLe k (filterEndKey start_time)

/-- `ColumnFamily::filter_by_time_index`: full scan; every key is
first decoded as UTF-8 (failure aborts the call), then the entries
whose key string lies in `[start_key, end_key]` are deserialized
(failure aborts the call) and collected. -/
def filter_by_time_index (decode : V → Option T) (start_time end_time : Nat) :
    List (Key × V) → Except DbError (List T)
  | [] => .ok []
  | (k, v) :: rest =>
    if utf8Valid k then
      if keyInRange start_time end_time k then
        match decode v with
        | none => .error .decodeFailure
        | some t =>
          match filter_by_time_index decode start_time end_time rest with
          | .ok l => .ok (t :: l)
          | .error e => .error e
      else filter_by_time_index decode start_time end_time rest
    else .error .invalidUtf8Key

/-- The modelled store invariant: entries strictly ascending in key
order, as RocksDB iteration yields them. -/
abbrev StoreSorted (st : List (Key × V)) : Prop :=
  st.Pairwise (fun e1 e2 => lexLt e1.1 e2.1 = true)

end ColumnFamily

/-- Failure modes of `DbContext::initialize`: the underlying open can
fail, and a second initialization is refused with the distinguishable
`DbContext already initialized` error. -/
inductive InitError (E : Type) : Type
  | openFailed (e : E)
  | alreadyInitialized
  deriving DecidableEq

namespace DbContext

/-- `DbContext::initialize` acting on the process-wide `OnceLock`
state: open the database (which may fail), then `set` the singleton;
`set` on an already-filled `OnceLock` leaves it unchanged and is
mapped to the `already initialized` error. -/
def initialize_db {H E : Type} (state : Option H) (openResult : Except E H) :
    Option H × Except (InitError E) Unit :=
  match openResult with
  | .error e => (state, .error (.openFailed e))
  | .ok h =>
    match state with
    | none => (some h, .ok ())
    | some h0 => (some h0, .error .alreadyInitialized)

end DbContext

/-! ### Lexicographic order lemmas -/

theorem lexLt_cons_iff {x y : Nat} {as bs : List Nat} :
    lexLt (x :: as) (y :: bs) = true ↔ x < y ∨ (x = y ∧ lexLt as bs = true) := by
  simp only [lexLt]
  split_ifs with h1 h2
  · simp [h1]
  · simp [h1, h2]
  · simp [h1, h2]

theorem lexLe_cons_iff {x y : Nat} {as bs : List Nat} :
    lexLe (x :: as) (y :: bs) = true ↔ x < y ∨ (x = y ∧ lexLe as bs = true) := by
  simp only [lexLe]
  split_ifs with h1 h2
  · simp [h1]
  · simp [h1, h2]
  · simp [h1, h2]

theorem lexLt_irrefl (l : List Nat) : lexLt l l = false := by
  induction l with
  | nil => rfl
  | cons a as ih => simp [lexLt, ih]

theorem lexLt_ne {a b : List Nat} (h : lexLt a b = true) : a ≠ b := by
  intro heq
  rw [heq, lexLt_irrefl] at h
  exact Bool.noConfusion h

theorem lexLt_trans {a b c : List Nat} (hab : lexLt a b = true)
    (hbc : lexLt b c = true) : lexLt a c = true := by
  induction a generalizing b c with
  | nil =>
    cases b with
    | nil => simp [lexLt] at hab
    | cons y bs =>
      cases c with
      | nil => simp [lexLt] at hbc
      | cons z cs => rfl
  | cons x as ih =>
    cases b with
    | nil => simp [lexLt] at hab
    | cons y bs =>
      cases c with
      | nil => simp [lexLt] at hbc
      | cons z cs =>
        rw [lexLt_cons_iff] at hab hbc ⊢
        rcases hab with h1 | ⟨rfl, h1⟩
        · rcases hbc with h2 | ⟨rfl, h2⟩
          · exact Or.inl (Nat.lt_trans h1 h2)
          · exact Or.inl h1
        · rcases hbc with h2 | ⟨rfl, h2⟩
          · exact Or.inl h2
          · exact Or.inr ⟨rfl, ih h1 h2⟩

theorem lexLe_of_lexLt {a b : List Nat} (h : lexLt a b = true) : lexLe a b = true := by
  induction a generalizing b with
  | nil => cases b <;> rfl
  | cons x as ih =>
    cases b with
    | nil => simp [lexLt] at h
    | cons y bs =>
      rw [lexLt_cons_iff] at h
      rw [lexLe_cons_iff]
      rcases h with h | ⟨rfl, h⟩
      · exact Or.inl h
      · exact Or.inr ⟨rfl, ih h⟩

theorem lexLt_append {x y : List Nat} (s t : List Nat) (hlen : x.length = y.length)
    (h : lexLt x y = true) : lexLt (x ++ s) (y ++ t) = true := by
  induction x generalizing y with
  | nil =>
    cases y with
    | nil => simp [lexLt] at h
    | cons b bs => simp at hlen
  | cons a as ih =>
    cases y with
    | nil => simp at hlen
    | cons b bs =>
      rw [lexLt_cons_iff] at h
      simp only [List.cons_append]
      rw [lexLt_cons_iff]
      rcases h with h | ⟨rfl, h⟩
      · exact Or.inl h
      · exact Or.inr ⟨rfl, ih (by simpa using hlen) h⟩

/-! ### Decimal rendering lemmas -/

/-- A byte string made of ASCII decimal digits. -/
def isDigits (l : List Nat) : Prop := ∀ d ∈ l, 48 ≤ d ∧ d ≤ 57

theorem valLSB_digitsRev : ∀ (fuel n : Nat), n < 10 ^ fuel →
    valLSB (digitsRev fuel n) = n := by
  intro fuel
  induction fuel with
  | zero =>
    intro n h
    have hn : n = 0 := by simpa using h
    simp [digitsRev, hn, valLSB]
  | succ fuel ih =>
    intro n h
    by_cases hn : n = 0
    · simp [digitsRev, hn, valLSB]
    · rw [digitsRev, if_neg hn, valLSB, ih (n / 10) ?_]
      · omega
      · rw [pow_succ] at h
        exact Nat.div_lt_of_lt_mul (by omega)

theorem digitsRev_lt_ten : ∀ (fuel n d : Nat), d ∈ digitsRev fuel n → d < 10 := by
  intro fuel
  induction fuel with
  | zero => intro n d h; simp [digitsRev] at h
  | succ fuel ih =>
    intro n d h
    by_cases hn : n = 0
    · simp [digitsRev, hn] at h
    · rw [digitsRev, if_neg hn] at h
      rcases List.mem_cons.mp h with h | h
      · omega
      · exact ih _ _ h

theorem length_digitsRev : ∀ (fuel n k : Nat), n < 10 ^ k →
    (digitsRev fuel n).length ≤ k := by
  intro fuel
  induction fuel with
  | zero => intro n k _; simp [digitsRev]
  | succ fuel ih =>
    intro n k h
    by_cases hn : n = 0
    · simp [digitsRev, hn]
    · rw [digitsRev, if_neg hn]
      obtain ⟨k', rfl⟩ : ∃ k', k = k' + 1 := by
        refine ⟨k - 1, ?_⟩
        have : k ≠ 0 := by
          intro hk
          rw [hk] at h
          simp at h
          omega
        omega
      have : n / 10 < 10 ^ k' := by
        rw [pow_succ] at h
        exact Nat.div_lt_of_lt_mul (by omega)
      simpa using Nat.succ_le_succ (ih (n / 10) k' this)

theorem isDigits_decimalBytes (n : Nat) : isDigits (decimalBytes n) := by
  intro d hd
  unfold decimalBytes at hd
  split_ifs at hd with hn
  · simp at hd
    omega
  · rw [List.mem_reverse, List.mem_map] at hd
    obtain ⟨d0, hd0, rfl⟩ := hd
    have := digitsRev_lt_ten 20 n d0 hd0
    omega

theorem length_decimalBytes_le {n : Nat} (h : n < 10 ^ 20) :
    (decimalBytes n).length ≤ 20 := by
  unfold decimalBytes
  split_ifs with hn
  · simp
  · simpa using length_digitsRev 20 n 20 h

theorem byteVal_append_singleton (xs : List Nat) (b : Nat) :
    byteVal (xs ++ [b]) = 10 * byteVal xs + (b - 48) := by
  induction xs with
  | nil => simp [byteVal]
  | cons x xs ih =>
    have hl : (xs ++ [b]).length = xs.length + 1 := by simp
    have hb : byteVal (x :: (xs ++ [b]))
        = (x - 48) * 10 ^ (xs ++ [b]).length + byteVal (xs ++ [b]) := rfl
    have hb2 : byteVal (x :: xs) = (x - 48) * 10 ^ xs.length + byteVal xs := rfl
    rw [List.cons_append, hb, ih, hl, pow_succ, hb2]
    ring

theorem byteVal_reverse_map (l : List Nat) :
    byteVal ((l.map (fun d => d + 48)).reverse) = valLSB l := by
  induction l with
  | nil => simp [byteVal, valLSB]
  | cons d ds ih =>
    simp only [List.map_cons, List.reverse_cons, byteVal_append_singleton, ih, valLSB]
    omega

theorem byteVal_decimalBytes {n : Nat} (h : n < 10 ^ 20) :
    byteVal (decimalBytes n) = n := by
  unfold decimalBytes
  split_ifs with hn
  · simp [hn, byteVal]
  · rw [byteVal_reverse_map, valLSB_digitsRev 20 n h]

theorem byteVal_replicate48 (k : Nat) (l : List Nat) :
    byteVal (List.replicate k 48 ++ l) = byteVal l := by
  induction k with
  | zero => simp
  | succ k ih => simp [List.replicate_succ, byteVal, ih]

theorem byteVal_pad (w : Nat) (l : List Nat) : byteVal (pad w l) = byteVal l :=
  byteVal_replicate48 _ _

theorem length_pad {w : Nat} {l : List Nat} (h : l.length ≤ w) :
    (pad w l).length = w := by
  simp [pad]
  omega

theorem isDigits_pad (w : Nat) {l : List Nat} (h : isDigits l) : isDigits (pad w l) := by
  intro d hd
  rcases List.mem_append.mp hd with hd | hd
  · have := List.eq_of_mem_replicate hd
    omega
  · exact h d hd

theorem byteVal_lt_of_isDigits {l : List Nat} (h : isDigits l) :
    byteVal l < 10 ^ l.length := by
  induction l with
  | nil => simp [byteVal]
  | cons d ds ih =>
    have hd : d - 48 ≤ 9 := by
      have := h d (List.mem_cons_self d ds)
      omega
    have hv : byteVal ds < 10 ^ ds.length :=
      ih (fun d hd => h d (List.mem_cons_of_mem _ hd))
    calc byteVal (d :: ds) = (d - 48) * 10 ^ ds.length + byteVal ds := rfl
      _ < (d - 48 + 1) * 10 ^ ds.length := by
          rw [Nat.add_mul, Nat.one_mul]
          omega
      _ ≤ 10 * 10 ^ ds.length := Nat.mul_le_mul_right _ (by omega)
      _ = 10 ^ (d :: ds).length := by
          rw [List.length_cons, pow_succ]
          ring

theorem byteVal_head_lt {d e : Nat} {ds es : List Nat} (hlen : ds.length = es.length)
    (hd : isDigits (d :: ds)) (he : isDigits (e :: es)) (hde : d < e) :
    byteVal (d :: ds) < byteVal (e :: es) := by
  have h48 : 48 ≤ d := (hd d (List.mem_cons_self d ds)).1
  have hv : byteVal ds < 10 ^ ds.length :=
    byteVal_lt_of_isDigits (fun x hx => hd x (List.mem_cons_of_mem _ hx))
  have hstep : d - 48 + 1 ≤ e - 48 := by omega
  calc byteVal (d :: ds) = (d - 48) * 10 ^ ds.length + byteVal ds := rfl
    _ < (d - 48 + 1) * 10 ^ ds.length := by
        rw [Nat.add_mul, Nat.one_mul]
        omega
    _ ≤ (e - 48) * 10 ^ es.length := by
        rw [hlen]
        exact Nat.mul_le_mul_right _ hstep
    _ ≤ (e - 48) * 10 ^ es.length + byteVal es := Nat.le_add_right _ _
    _ = byteVal (e :: es) := rfl

theorem lexLt_iff_byteVal : ∀ {l1 l2 : List Nat}, l1.length = l2.length →
    isDigits l1 → isDigits l2 → (lexLt l1 l2 = true ↔ byteVal l1 < byteVal l2) := by
  intro l1
  induction l1 with
  | nil =>
    intro l2 hlen _ _
    have : l2 = [] := by
      cases l2 with
      | nil => rfl
      | cons e es => simp at hlen
    subst this
    simp [lexLt, byteVal]
  | cons d ds ih =>
    intro l2 hlen h1 h2
    cases l2 with
    | nil => simp at hlen
    | cons e es =>
      have hlen' : ds.length = es.length := by simpa using hlen
      have hds : isDigits ds := fun x hx => h1 x (List.mem_cons_of_mem _ hx)
      have hes : isDigits es := fun x hx => h2 x (List.mem_cons_of_mem _ hx)
      rw [lexLt_cons_iff]
      constructor
      · rintro (hde | ⟨rfl, hlt⟩)
        · exact byteVal_head_lt hlen' h1 h2 hde
        · have := (ih hlen' hds hes).mp hlt
          simp only [byteVal, hlen']
          omega
      · intro hval
        rcases Nat.lt_trichotomy d e with hde | rfl | hed
        · exact Or.inl hde
        · refine Or.inr ⟨rfl, (ih hlen' hds hes).mpr ?_⟩
          simp only [byteVal, hlen'] at hval
          omega
        · have := byteVal_head_lt hlen'.symm h2 h1 hed
          omega

theorem pad20_lexLt {n m : Nat} (hnm : n < m) (hm : m < 10 ^ 20) :
    lexLt (pad 20 (decimalBytes n)) (pad 20 (decimalBytes m)) = true := by
  have hn : n < 10 ^ 20 := Nat.lt_trans hnm hm
  have hlen : (pad 20 (decimalBytes n)).length = (pad 20 (decimalBytes m)).length := by
    rw [length_pad (length_decimalBytes_le hn), length_pad (length_decimalBytes_le hm)]
  refine (lexLt_iff_byteVal hlen (isDigits_pad _ (isDigits_decimalBytes n))
    (isDigits_pad _ (isDigits_decimalBytes m))).mpr ?_
  rw [byteVal_pad, byteVal_pad, byteVal_decimalBytes hn, byteVal_decimalBytes hm]
  exact hnm

/-! ### Store operation lemmas -/

namespace ColumnFamily

variable {V T : Type}

theorem count_all_spec (st : List (Key × V)) : count_all st = Except.ok st.length := by
  induction st with
  | nil => rfl
  | cons e rest ih => simp [count_all, ih]

theorem get_all_spec (decode : V → Option T) (st : List (Key × V)) :
    get_all decode st = if st.all (fun e => (decode e.2).isSome)
      then Except.ok (st.filterMap (fun e => decode e.2))
      else Except.error DbError.decodeFailure := by
  induction st with
  | nil => simp [get_all]
  | cons e rest ih =>
    obtain ⟨k, v⟩ := e
    cases hd : decode v with
    | none => simp [get_all, hd]
    | some t =>
      rw [show get_all decode ((k, v) :: rest)
          = (match decode v with
             | none => Except.error DbError.decodeFailure
             | some t =>
               match get_all decode rest with
               | .ok l => .ok (t :: l)
               | .error e => .error e) from rfl]
      rw [hd, ih]
      by_cases hall : rest.all (fun e => (decode e.2).isSome)
      · simp [hall, List.filterMap_cons, hd]
      · simp [hall, hd]

theorem filter_ok_complete (decode : V → Option T) (a b : Nat) :
    ∀ (st : List (Key × V)) (l : List T),
      filter_by_time_index decode a b st = Except.ok l →
      l = st.filterMap (fun e => if keyInRange a b e.1 then decode e.2 else none) := by
  intro st
  induction st with
  | nil =>
    intro l h
    simp [filter_by_time_index] at h
    simp [h.symm]
  | cons hd rest ih =>
    obtain ⟨k, v⟩ := hd
    intro l h
    cases hu : utf8Valid k with
    | false => simp [filter_by_time_index, hu] at h
    | true =>
      cases hr : keyInRange a b k with
      | false =>
        rw [show filter_by_time_index decode a b ((k, v) :: rest)
            = (if utf8Valid k then
                if keyInRange a b k then
                  match decode v with
                  | none => Except.error DbError.decodeFailure
                  | some t =>
                    match filter_by_time_index decode a b rest with
                    | .ok l => .ok (t :: l)
                    | .error e => .error e
                else filter_by_time_index decode a b rest
              else Except.error DbError.invalidUtf8Key) from rfl, hu, hr] at h
        simp only [if_true, if_false, Bool.false_eq_true] at h
        rw [List.filterMap_cons]
        simp only [hr]
        exact ih l h
      | true =>
        cases hdv : decode v with
        | none => simp [filter_by_time_index, hu, hr, hdv] at h
        | some t =>
          cases hrest : filter_by_time_index decode a b rest with
          | error e => simp [filter_by_time_index, hu, hr, hdv, hrest] at h
          | ok l' =>
            have hl : l = t :: l' := by
              have := h
              simp [filter_by_time_index, hu, hr, hdv, hrest] at this
              exact this.symm
            rw [hl, List.filterMap_cons]
            simp only [hr, if_true, hdv]
            rw [ih l' hrest]

theorem filter_error_of_bad (decode : V → Option T) (a b : Nat) :
    ∀ st : List (Key × V),
      (∃ e ∈ st, utf8Valid e.1 = false ∨
        (keyInRange a b e.1 = true ∧ decode e.2 = none)) →
      ∃ err, filter_by_time_index decode a b st = Except.error err := by
  intro st
  induction st with
  | nil => rintro ⟨e, he, _⟩; simp at he
  | cons hd rest ih =>
    obtain ⟨k, v⟩ := hd
    rintro ⟨e, he, hbad⟩
    rcases List.mem_cons.mp he with rfl | hmem
    · rcases hbad with hutf | ⟨hr, hdv⟩
      · exact ⟨.invalidUtf8Key, by simp [filter_by_time_index, hutf]⟩
      · cases hu : utf8Valid k with
        | false => exact ⟨.invalidUtf8Key, by simp [filter_by_time_index, hu]⟩
        | true => exact ⟨.decodeFailure, by simp [filter_by_time_index, hu, hr, hdv]⟩
    · cases hu : utf8Valid k with
      | false => exact ⟨.invalidUtf8Key, by simp [filter_by_time_index, hu]⟩
      | true =>
        obtain ⟨err, herr⟩ := ih ⟨e, hmem, hbad⟩
        cases hr : keyInRange a b k with
        | false => exact ⟨err, by simp [filter_by_time_index, hu, hr, herr]⟩
        | true =>
          cases hdv : decode v with
          | none => exact ⟨.decodeFailure, by simp [filter_by_time_index, hu, hr, hdv]⟩
          | some t => exact ⟨err, by simp [filter_by_time_index, hu, hr, hdv, herr]⟩

theorem lookupKey_del (st : List (Key × V)) (k : Key) :
    lookupKey k (del st k) = none := by
  induction st with
  | nil => rfl
  | cons e rest ih =>
    obtain ⟨k', v⟩ := e
    by_cases hk : k' = k
    · simpa [del, List.filter_cons, hk] using ih
    · have hk2 : ¬ k = k' := fun h => hk h.symm
      simpa [del, List.filter_cons, hk, lookupKey, hk2] using ih

theorem del_del (st : List (Key × V)) (k : Key) : del (del st k) k = del st k := by
  apply List.filter_eq_self.mpr
  intro e he
  exact (List.mem_filter.mp he).2

theorem setEntry_setEntry_same (k : Key) (v1 v2 : V) (st : List (Key × V)) :
    setEntry k v2 (setEntry k v1 st) = setEntry k v2 st := by
  induction st with
  | nil => simp [setEntry, lexLt_irrefl]
  | cons e rest ih =>
    obtain ⟨k', v'⟩ := e
    by_cases h1 : lexLt k k' = true
    · simp [setEntry, h1, lexLt_irrefl]
    · by_cases h2 : k = k'
      · simp [setEntry, h1, h2, lexLt_irrefl]
      · simp [setEntry, h1, h2, ih]

theorem setEntry_split (k : Key) (v : V) :
    ∀ st : List (Key × V), StoreSorted st →
      ∃ l1 l2, setEntry k v st = l1 ++ (k, v) :: l2
        ∧ (∀ e ∈ l1, e ∈ st ∧ e.1 ≠ k) ∧ (∀ e ∈ l2, e ∈ st ∧ e.1 ≠ k) := by
  intro st
  induction st with
  | nil => exact fun _ => ⟨[], [], by simp [setEntry], by simp, by simp⟩
  | cons hd rest ih =>
    obtain ⟨k', v'⟩ := hd
    intro hs
    obtain ⟨hhead, htail⟩ := List.pairwise_cons.mp hs
    by_cases h1 : lexLt k k' = true
    · refine ⟨[], (k', v') :: rest, by simp [setEntry, h1], by simp, ?_⟩
      intro e he
      rcases List.mem_cons.mp he with rfl | hmem
      · exact ⟨List.mem_cons_self _ _, fun hkk => (lexLt_ne h1) hkk.symm⟩
      · have hk'e := hhead e hmem
        have hke : lexLt k e.1 = true := lexLt_trans h1 hk'e
        exact ⟨List.mem_cons_of_mem _ hmem, fun hkk => (lexLt_ne hke) hkk.symm⟩
    · by_cases h2 : k = k'
      · subst h2
        refine ⟨[], rest, by simp [setEntry, h1], by simp, ?_⟩
        intro e he
        have hke := hhead e he
        exact ⟨List.mem_cons_of_mem _ he, fun hkk => (lexLt_ne hke) hkk.symm⟩
      · obtain ⟨l1, l2, heq, hl1, hl2⟩ := ih htail
        refine ⟨(k', v') :: l1, l2, by simp [setEntry, h1, h2, heq], ?_, ?_⟩
        · intro e he
          rcases List.mem_cons.mp he with rfl | hmem
          · exact ⟨List.mem_cons_self _ _, fun hkk => h2 hkk.symm⟩
          · obtain ⟨hm, hne⟩ := hl1 e hmem
            exact ⟨List.mem_cons_of_mem _ hm, hne⟩
        · intro e he
          obtain ⟨hm, hne⟩ := hl2 e he
          exact ⟨List.mem_cons_of_mem _ hm, hne⟩

theorem lookupKey_append (k : Key) (l1 l2 : List (Key × V))
    (h : ∀ e ∈ l1, e.1 ≠ k) : lookupKey k (l1 ++ l2) = lookupKey k l2 := by
  induction l1 with
  | nil => rfl
  | cons e l1 ih =>
    obtain ⟨k', v'⟩ := e
    have hne : ¬ k = k' := fun hh => (h (k', v') (List.mem_cons_self _ _)) hh.symm
    rw [List.cons_append]
    rw [show lookupKey k ((k', v') :: (l1 ++ l2))
        = if k = k' then some v' else lookupKey k (l1 ++ l2) from rfl]
    rw [if_neg hne]
    exact ih (fun e he => h e (List.mem_cons_of_mem _ he))

theorem filter_split_drop (tp dp : List (Key × V))
    (hcross : ∀ a ∈ tp, ∀ b ∈ dp, lexLt a.1 b.1 = true) :
    (tp ++ dp).filter (fun e => decide (e.1 ∉ tp.map Prod.fst)) = dp := by
  have h1 : tp.filter (fun e => decide (e.1 ∉ tp.map Prod.fst)) = [] := by
    rw [List.filter_eq_nil_iff]
    intro e he
    simp only [decide_eq_true_eq, not_not]
    exact List.mem_map_of_mem Prod.fst he
  have h2 : dp.filter (fun e => decide (e.1 ∉ tp.map Prod.fst)) = dp := by
    rw [List.filter_eq_self]
    intro e he
    rw [decide_eq_true_eq]
    intro hmem
    rw [List.mem_map] at hmem
    obtain ⟨e', he', hfst⟩ := hmem
    have hlt := hcross e' he' e he
    rw [hfst] at hlt
    rw [lexLt_irrefl] at hlt
    exact Bool.noConfusion hlt
  rw [List.filter_append, h1, h2, List.nil_append]

theorem filter_take_eq_drop (st : List (Key × V)) (m : Nat) (hs : StoreSorted st) :
    st.filter (fun e => decide (e.1 ∉ (st.take m).map Prod.fst)) = st.drop m := by
  have hpw : ((st.take m) ++ (st.drop m)).Pairwise
      (fun e1 e2 => lexLt e1.1 e2.1 = true) := by
    rw [List.take_append_drop]
    exact hs
  rw [List.pairwise_append] at hpw
  obtain ⟨-, -, hcross⟩ := hpw
  have h := filter_split_drop (st.take m) (st.drop m) hcross
  rw [List.take_append_drop] at h
  exact h

theorem keep_size_spec (st : List (Key × V)) (n : Nat) (hs : StoreSorted st) :
    keep_size st n = Except.ok (st.drop (st.length - n)) := by
  simp only [keep_size, count_all_spec]
  by_cases h : st.length ≤ n
  · have h0 : st.length - n = 0 := by omega
    simp [h, h0]
  · simp only [h, if_false]
    rw [filter_take_eq_drop st (st.length - n) hs]

end ColumnFamily

/-! ### Machine-arithmetic lemmas -/

theorem i64_wrap_eq {x : Int} (h1 : i64Min ≤ x) (h2 : x ≤ i64Max) : i64_wrap x = x := by
  unfold i64Min at h1
  unfold i64Max at h2
  unfold i64_wrap
  omega

theorem i64_sub_max_eq {t : Int} (h0 : 0 ≤ t) (h : t ≤ i64Max) :
    i64_sub i64Max t = i64Max - t := by
  unfold i64_sub
  refine i64_wrap_eq ?_ ?_
  · unfold i64Max i64Min
    unfold i64Max at h
    omega
  · unfold i64Max
    omega

theorem u64_sub_eq {a b : Nat} (hb : b ≤ a) (ha : a < u64Mod) : u64_sub a b = a - b := by
  unfold u64Mod at ha
  unfold u64_sub u64Mod
  omega

/-! ### Claim theorems -/

/-- Claim C1 (code evaluated at the failing input): a namespace holding
one record whose key was produced by `generate_timestamp_index` at
instant 200 is queried with `filter_by_time_index 100 300`.  The claim
(and the function's own documentation) requires the record to be
returned, since `100 ≤ 200 ≤ 300`; the code returns the empty list,
because the stored key is the 20-digit zero-padded
`"09223372036854775607_id"` while the computed `start_key` is the
unpadded 19-digit `"9223372036854775507"`, and every padded key
(leading `'0'`) sorts strictly below every unpadded bound (leading
`'9'`). -/
theorem c1_filter_misses_in_range_record :
    ColumnFamily.filter_by_time_index (fun v => some (v : Nat)) 100 300
      [(generate_timestamp_index [105, 100] 200, (7 : Nat))] = Except.ok [] := by
  rfl

/-- Claim C2 (counterexample): a store whose single entry does not
decode (`decode` is constantly `none`) on which `count_all`
nevertheless succeeds with `Ok 1` — refuting the claim that
`count_all` returns an error whenever some stored value does not
decode as `T`. -/
theorem c2_counterexample :
    ((fun (_ : Nat) => (none : Option Nat)) 0 = none)
    ∧ ColumnFamily.count_all (V := Nat) [([49], 0)] = Except.ok 1 :=
  ⟨rfl, rfl⟩

/-- Claim C2 (amended): `count_all` performs a full scan counting
entries without ever decoding values, so it cannot fail on a corrupt
entry: on every store, including one holding an entry whose bytes do
not decode as `T`, it returns `Ok` with the full entry count (the
corrupt entry is counted, not skipped); the decode failure is instead
surfaced by the operations that do decode, such as `get_all`. -/
theorem c2_count_all_succeeds_on_undecodable {V T : Type} (decode : V → Option T)
    (st : List (Key × V)) (hbad : ∃ e ∈ st, decode e.2 = none) :
    ColumnFamily.count_all st = Except.ok st.length
    ∧ ColumnFamily.get_all decode st = Except.error DbError.decodeFailure := by
  refine ⟨ColumnFamily.count_all_spec st, ?_⟩
  rw [ColumnFamily.get_all_spec]
  have hnall : ¬ st.all (fun e => (decode e.2).isSome) = true := by
    intro hall
    rw [List.all_eq_true] at hall
    obtain ⟨e, he, hd⟩ := hbad
    have := hall e he
    rw [hd] at this
    simp at this
  rw [if_neg hnall]

/-- Witness for C2's amended theorem at a concrete store. -/
theorem c2_witness :
    ColumnFamily.count_all (V := Nat) [([49], (0 : Nat))] = Except.ok 1
    ∧ ColumnFamily.get_all (fun (_ : Nat) => (none : Option Nat)) [([49], (0 : Nat))]
        = Except.error DbError.decodeFailure := by
  have h := c2_count_all_succeeds_on_undecodable (fun (_ : Nat) => (none : Option Nat))
    [([49], (0 : Nat))] ⟨([49], 0), by simp, rfl⟩
  simpa using h

/-- Claim C4: for instants `0 ≤ t1 < t2 ≤ i64::MAX` (the non-negative
signed 64-bit epoch-seconds domain) and a fixed discriminator, the
index key of the later instant is lexicographically smaller:
`generate_timestamp_index id t2 < generate_timestamp_index id t1`,
because the inverted value `i64::MAX - t` is rendered as a fixed-width
20-digit zero-padded decimal, on which lexicographic and numeric
ordering agree. -/
theorem c4_chronological_ordering (config_id : List Nat) (t1 t2 : Int)
    (h0 : 0 ≤ t1) (h12 : t1 < t2) (h2 : t2 ≤ i64Max) :
    lexLt (generate_timestamp_index config_id t2)
      (generate_timestamp_index config_id t1) = true := by
  have e2 : i64_sub i64Max t2 = i64Max - t2 :=
    i64_sub_max_eq (le_trans h0 (le_of_lt h12)) h2
  have e1 : i64_sub i64Max t1 = i64Max - t1 :=
    i64_sub_max_eq h0 (le_trans (le_of_lt h12) h2)
  have hpow : (10 : Nat) ^ 20 = 100000000000000000000 := by norm_num
  have hb2 : (i64Max - t2).toNat < 10 ^ 20 := by
    rw [hpow]
    unfold i64Max
    unfold i64Max at h2
    omega
  have hb1 : (i64Max - t1).toNat < 10 ^ 20 := by
    rw [hpow]
    unfold i64Max
    unfold i64Max at h2
    omega
  have hn2 : ¬ (i64Max - t2 < 0) := by
    unfold i64Max at h2 ⊢
    omega
  have hn1 : ¬ (i64Max - t1 < 0) := by
    unfold i64Max at h2 ⊢
    omega
  unfold generate_timestamp_index
  rw [e1, e2]
  unfold fmt020
  rw [if_neg hn1, if_neg hn2]
  apply lexLt_append
  · rw [length_pad (length_decimalBytes_le hb2), length_pad (length_decimalBytes_le hb1)]
  · refine pad20_lexLt ?_ hb1
    omega

/-- Witness for C4 at the concrete instants 100 and 200. -/
theorem c4_witness :
    lexLt (generate_timestamp_index [105, 100] 200)
      (generate_timestamp_index [105, 100] 100) = true :=
  c4_chronological_ordering [105, 100] 100 200 (by norm_num) (by norm_num)
    (by norm_num [i64Max])

/-- Claim C10: the inversion arithmetic is overflow-free exactly on
the in-domain inputs.  In `filter_by_time_index`, the wrapping `u64`
subtraction `(i64::MAX as u64) - end_time` equals the mathematical
difference (no underflow) iff `end_time ≤ i64::MAX as u64`, and
likewise for `start_time`; in `generate_timestamp_index`, the wrapping
`i64` subtraction `i64::MAX - t` equals the mathematical difference
(no overflow) iff the instant's unix seconds `t` are non-negative. -/
theorem c10_overflow_conditions (s e : Nat) (t : Int)
    (hs : s < u64Mod) (he : e < u64Mod) (ht1 : i64Min ≤ t) (ht2 : t ≤ i64Max) :
    (((u64_sub maxTimestampU64 e : Nat) : Int)
        = (maxTimestampU64 : Int) - (e : Int) ↔ e ≤ maxTimestampU64)
    ∧ (((u64_sub maxTimestampU64 s : Nat) : Int)
        = (maxTimestampU64 : Int) - (s : Int) ↔ s ≤ maxTimestampU64)
    ∧ (i64_sub i64Max t = i64Max - t ↔ 0 ≤ t) := by
  unfold u64Mod at hs he
  unfold i64Min at ht1
  unfold i64Max at ht2
  unfold u64_sub u64Mod maxTimestampU64 i64_sub i64_wrap i64Max
  refine ⟨?_, ?_, ?_⟩ <;> omega

/-- Witness for C10 at `s = e = 0`, `t = 0`. -/
theorem c10_witness :
    ((u64_sub maxTimestampU64 0 : Nat) : Int) = (maxTimestampU64 : Int) - (0 : Int)
    ∧ i64_sub i64Max 0 = i64Max - 0 := by
  have h := c10_overflow_conditions 0 0 0 (by norm_num [u64Mod]) (by norm_num [u64Mod])
    (by norm_num [i64Min]) (by norm_num [i64Max])
  exact ⟨h.1.mpr (by norm_num [maxTimestampU64]), h.2.2.mpr le_rfl⟩

/-- Claim C3: on a sorted store (RocksDB iteration order), `keep_size n`
deletes exactly the first `count - n` entries — the lexicographically
smallest keys — in one batch (it returns the suffix `drop (count - n)`
of the store), is a no-op when `count ≤ n`, leaves at most `n` entries,
and every retained entry's key is lexicographically ≥ every evicted
entry's key. -/
theorem c3_keep_size_retention {V : Type} (st : List (Key × V)) (n : Nat)
    (hs : ColumnFamily.StoreSorted st) :
    ColumnFamily.keep_size st n = Except.ok (st.drop (st.length - n))
    ∧ (st.length ≤ n → ColumnFamily.keep_size st n = Except.ok st)
    ∧ (st.drop (st.length - n)).length ≤ n
    ∧ ∀ e1 ∈ st.drop (st.length - n), ∀ e2 ∈ st.take (st.length - n),
        lexLe e2.1 e1.1 = true := by
  refine ⟨ColumnFamily.keep_size_spec st n hs, ?_, ?_, ?_⟩
  · intro h
    rw [ColumnFamily.keep_size_spec st n hs]
    have h0 : st.length - n = 0 := by omega
    rw [h0, List.drop_zero]
  · rw [List.length_drop]
    omega
  · intro e1 he1 e2 he2
    have hpw : ((st.take (st.length - n)) ++ (st.drop (st.length - n))).Pairwise
        (fun x y => lexLt x.1 y.1 = true) := by
      rw [List.take_append_drop]
      exact hs
    rw [List.pairwise_append] at hpw
    exact lexLe_of_lexLt (hpw.2.2 e2 he2 e1 he1)

/-- Witness for C3: a three-entry sorted store trimmed to one entry
keeps exactly the entry with the largest key. -/
theorem c3_witness :
    ColumnFamily.keep_size (V := Nat) [([49], 10), ([50], 20), ([51], 30)] 1
      = Except.ok [([51], 30)] := by
  have h := c3_keep_size_retention (V := Nat) [([49], 10), ([50], 20), ([51], 30)] 1
    (by decide)
  simpa using h.1

/-- Claim C6: neither `get_all` nor `filter_by_time_index` returns a
partial result.  `get_all` returns the complete decoded sequence when
every entry decodes and the decode failure otherwise; when
`filter_by_time_index` returns `Ok l`, `l` is exactly the decoding of
all in-range entries of the full scan, and whenever any entry fails
(invalid UTF-8 key anywhere, or an in-range entry that does not
decode) the whole call returns an error, with no records. -/
theorem c6_no_partial_results {V T : Type} (decode : V → Option T) (a b : Nat)
    (st : List (Key × V)) :
    ColumnFamily.get_all decode st = (if st.all (fun e => (decode e.2).isSome)
        then Except.ok (st.filterMap (fun e => decode e.2))
        else Except.error DbError.decodeFailure)
    ∧ (∀ l, ColumnFamily.filter_by_time_index decode a b st = Except.ok l →
        l = st.filterMap
          (fun e => if ColumnFamily.keyInRange a b e.1 then decode e.2 else none))
    ∧ ((∃ e ∈ st, utf8Valid e.1 = false ∨
          (ColumnFamily.keyInRange a b e.1 = true ∧ decode e.2 = none)) →
        ∃ err, ColumnFamily.filter_by_time_index decode a b st = Except.error err) :=
  ⟨ColumnFamily.get_all_spec decode st,
   fun l h => ColumnFamily.filter_ok_complete decode a b st l h,
   fun h => ColumnFamily.filter_error_of_bad decode a b st h⟩

/-- Witness for C6: a fully-decodable store yields the complete list,
and one bad entry makes the whole filter call fail. -/
theorem c6_witness :
    ColumnFamily.get_all (fun v => some (v : Nat)) [([49], (7 : Nat))] = Except.ok [7]
    ∧ ∃ err, ColumnFamily.filter_by_time_index (fun v => some (v : Nat)) 0 0
        [([255], (1 : Nat))] = Except.error err := by
  constructor
  · have h := (c6_no_partial_results (fun v => some (v : Nat)) 0 0 [([49], (7 : Nat))]).1
    simpa using h
  · exact (c6_no_partial_results (fun v => some (v : Nat)) 0 0 [([255], (1 : Nat))]).2.2
      ⟨([255], 1), by simp, Or.inl rfl⟩

/-- Claim C7: "key not found" is a normal outcome: `get` on an absent
key returns `Ok None` (not an error), `del` is total on the modelled
store and idempotent (`del k; del k` equals `del k`), and after a
delete the key reads back as absent. -/
theorem c7_absent_key_normal {V T : Type} (decode : V → Option T)
    (st : List (Key × V)) (k : Key) (habs : ColumnFamily.lookupKey k st = none) :
    ColumnFamily.get decode st k = Except.ok none
    ∧ ColumnFamily.del (ColumnFamily.del st k) k = ColumnFamily.del st k
    ∧ ColumnFamily.get decode (ColumnFamily.del st k) k = Except.ok none := by
  refine ⟨?_, ColumnFamily.del_del st k, ?_⟩
  · unfold ColumnFamily.get
    rw [habs]
  · unfold ColumnFamily.get
    rw [ColumnFamily.lookupKey_del]

/-- Witness for C7 on a concrete store and absent key. -/
theorem c7_witness :
    ColumnFamily.get (fun v => some (v : Nat)) [([49], (7 : Nat))] [50] = Except.ok none
    ∧ ColumnFamily.del (ColumnFamily.del [([49], (7 : Nat))] [50]) [50]
        = ColumnFamily.del [([49], (7 : Nat))] [50]
    ∧ ColumnFamily.get (fun v => some (v : Nat))
        (ColumnFamily.del [([49], (7 : Nat))] [50]) [50] = Except.ok none :=
  c7_absent_key_normal (fun v => some (v : Nat)) [([49], (7 : Nat))] [50] rfl

/-- Claim C8: the storage handle is installed by the first successful
initialization; every later attempt (whatever its open result) leaves
the installed handle unchanged and returns an error, and when the
open itself succeeds that error is the distinguishable
`alreadyInitialized`. -/
theorem c8_initialize_once {H E : Type} (h h0 : H) (r : Except E H) :
    DbContext.initialize_db (none : Option H) (Except.ok h : Except E H)
        = (some h, Except.ok ())
    ∧ (DbContext.initialize_db (some h0) r).1 = some h0
    ∧ (∃ err, (DbContext.initialize_db (some h0) r).2 = Except.error err)
    ∧ DbContext.initialize_db (some h0) (Except.ok h : Except E H)
        = (some h0, Except.error InitError.alreadyInitialized) := by
  cases r with
  | error e => exact ⟨rfl, rfl, ⟨InitError.openFailed e, rfl⟩, rfl⟩
  | ok h' => exact ⟨rfl, rfl, ⟨InitError.alreadyInitialized, rfl⟩, rfl⟩

/-- Claim C9: `filter_by_time_index` demands every key in the
namespace to be valid UTF-8: any entry whose key bytes are not valid
UTF-8 makes the whole call return an error, whatever the requested
range (the validity check runs before the range test on every
scanned entry). -/
theorem c9_invalid_utf8_key_aborts {V T : Type} (decode : V → Option T) (a b : Nat)
    (st : List (Key × V)) (hbad : ∃ e ∈ st, utf8Valid e.1 = false) :
    ∃ err, ColumnFamily.filter_by_time_index decode a b st = Except.error err := by
  obtain ⟨e, he, hu⟩ := hbad
  exact ColumnFamily.filter_error_of_bad decode a b st ⟨e, he, Or.inl hu⟩

/-- Witness for C9: a store with the non-UTF-8 key `[0xFF]` (a key
that moreover lies outside the scanned range) makes the call fail. -/
theorem c9_witness :
    ∃ err, ColumnFamily.filter_by_time_index (fun v => some (v : Nat)) 0 0
      [([255], (1 : Nat))] = Except.error err :=
  c9_invalid_utf8_key_aborts (fun v => some (v : Nat)) 0 0 [([255], (1 : Nat))]
    ⟨([255], 1), by simp, rfl⟩

/-- Claim C5: upsert semantics of `set`.  On a well-formed store
(sorted in key order, with every stored value decoding to a record
whose derived key equals its stored key), after `set a` then `set b`
with `a.key() = b.key()` and `a ≠ b`, `get_all` succeeds and its
result contains exactly one record with that key, equal to `b` (the
colliding write overwrote rather than failing or duplicating), and
`get (b.key())` returns `b`. -/
theorem c5_upsert {V T : Type} (encode : T → V) (decode : V → Option T)
    (keyOf : T → Key) (st : List (Key × V)) (a b : T)
    (hs : ColumnFamily.StoreSorted st)
    (hwf : ∀ e ∈ st, ∃ t, decode e.2 = some t ∧ keyOf t = e.1)
    (hrt : decode (encode b) = some b)
    (hkey : keyOf a = keyOf b)
    (hne : a ≠ b) :
    (∃ l, ColumnFamily.get_all decode
        (ColumnFamily.set encode keyOf (ColumnFamily.set encode keyOf st a) b)
        = Except.ok l
      ∧ l.filter (fun r => decide (keyOf r = keyOf b)) = [b])
    ∧ ColumnFamily.get decode
        (ColumnFamily.set encode keyOf (ColumnFamily.set encode keyOf st a) b)
        (keyOf b) = Except.ok (some b) := by
  have hcollapse : ColumnFamily.set encode keyOf (ColumnFamily.set encode keyOf st a) b
      = ColumnFamily.setEntry (keyOf b) (encode b) st := by
    unfold ColumnFamily.set
    rw [hkey, ColumnFamily.setEntry_setEntry_same]
  rw [hcollapse]
  obtain ⟨l1, l2, heq, hl1, hl2⟩ :=
    ColumnFamily.setEntry_split (keyOf b) (encode b) st hs
  rw [heq]
  constructor
  · have hall : (l1 ++ (keyOf b, encode b) :: l2).all
        (fun e => (decode e.2).isSome) = true := by
      rw [List.all_eq_true]
      intro e he
      rcases List.mem_append.mp he with hm | hm
      · obtain ⟨hmem, -⟩ := hl1 e hm
        obtain ⟨t, ht, -⟩ := hwf e hmem
        simp [ht]
      · rcases List.mem_cons.mp hm with rfl | hm2
        · simp [hrt]
        · obtain ⟨hmem, -⟩ := hl2 e hm2
          obtain ⟨t, ht, -⟩ := hwf e hmem
          simp [ht]
    rw [ColumnFamily.get_all_spec, if_pos hall]
    refine ⟨_, rfl, ?_⟩
    rw [List.filterMap_append, List.filter_append]
    have hmid : List.filterMap (fun e => decode e.2) ((keyOf b, encode b) :: l2)
        = b :: List.filterMap (fun e => decode e.2) l2 := by
      rw [List.filterMap_cons]
      simp [hrt]
    rw [hmid]
    have hf1 : (l1.filterMap (fun e => decode e.2)).filter
        (fun r => decide (keyOf r = keyOf b)) = [] := by
      rw [List.filter_eq_nil_iff]
      intro r hr
      rw [List.mem_filterMap] at hr
      obtain ⟨e, he, hde⟩ := hr
      obtain ⟨hmem, hne'⟩ := hl1 e he
      obtain ⟨t, ht, hkt⟩ := hwf e hmem
      rw [ht] at hde
      have hteq : t = r := Option.some.inj hde
      subst hteq
      simp only [decide_eq_true_eq]
      rw [hkt]
      exact hne'
    have hf2 : (l2.filterMap (fun e => decode e.2)).filter
        (fun r => decide (keyOf r = keyOf b)) = [] := by
      rw [List.filter_eq_nil_iff]
      intro r hr
      rw [List.mem_filterMap] at hr
      obtain ⟨e, he, hde⟩ := hr
      obtain ⟨hmem, hne'⟩ := hl2 e he
      obtain ⟨t, ht, hkt⟩ := hwf e hmem
      rw [ht] at hde
      have hteq : t = r := Option.some.inj hde
      subst hteq
      simp only [decide_eq_true_eq]
      rw [hkt]
      exact hne'
    rw [hf1, List.filter_cons, if_pos (by simp), hf2, List.nil_append]
  · unfold ColumnFamily.get
    rw [ColumnFamily.lookupKey_append (keyOf b) l1 _ (fun e he => (hl1 e he).2)]
    have hlook : ColumnFamily.lookupKey (keyOf b) ((keyOf b, encode b) :: l2)
        = some (encode b) := by
      simp [ColumnFamily.lookupKey]
    rw [hlook]
    simp [hrt]

/-- Witness for C5: two writes with the same constant key into the
empty store leave exactly the second record. -/
theorem c5_witness :
    (∃ l, ColumnFamily.get_all (fun v => some (v : Nat))
        (ColumnFamily.set (fun n => n) (fun _ => [107])
          (ColumnFamily.set (fun n => n) (fun _ => [107]) ([] : List (Key × Nat)) 1) 2)
        = Except.ok l
      ∧ l.filter (fun r => decide (([107] : Key) = [107])) = [2])
    ∧ ColumnFamily.get (fun v => some (v : Nat))
        (ColumnFamily.set (fun n => n) (fun _ => [107])
          (ColumnFamily.set (fun n => n) (fun _ => [107]) ([] : List (Key × Nat)) 1) 2)
        ([107] : Key) = Except.ok (some 2) :=
  c5_upsert (fun n => n) (fun v => some v) (fun _ => [107]) [] 1 2
    List.Pairwise.nil (by simp) rfl rfl (by decide)

end DumboDb
